import Mathlib

/-!
# Verification of the aws repository's signing and tree-hash core

Shallow embedding of `src/aws.go` (AWS signature version 4: canonical
request construction, signing-key derivation, signature computation) and
`src/glacier/treehash.go` (streaming Glacier tree hash, linear hash, and
multipart tree-hash combination).

Go byte strings and byte slices are modelled as `List Nat` with every
element a byte value (`< 256` where it matters); machine words are `Nat`
with explicit reduction modulo `2^32`; streaming hash objects are modelled
by the byte sequence fed to them so far.
-/

namespace Aws

set_option maxRecDepth 10000000
set_option synthInstance.maxSize 2000

/-! ## SHA-256 (as used via Go's crypto/sha256)

FIPS 180-4 over byte lists.  Words are `Nat` values kept below `2 ^ 32`
by explicit `% M32`. -/

/-- `2 ^ 32`, the word modulus. -/
def M32 : Nat := 4294967296

/-- 32-bit mask, used for bitwise complement. -/
def mask32 : Nat := 4294967295

/-- Right rotation of a 32-bit word (input assumed `< 2 ^ 32`). -/
def rotr (n x : Nat) : Nat := (x >>> n) ||| ((x <<< (32 - n)) % M32)

/-- `Ch(x,y,z)` of FIPS 180-4. -/
def ch (x y z : Nat) : Nat := (x &&& y) ^^^ ((x ^^^ mask32) &&& z)

/-- `Maj(x,y,z)` of FIPS 180-4. -/
def maj (x y z : Nat) : Nat := (x &&& y) ^^^ (x &&& z) ^^^ (y &&& z)

/-- `Σ₀`. -/
def bsig0 (x : Nat) : Nat := rotr 2 x ^^^ rotr 13 x ^^^ rotr 22 x

/-- `Σ₁`. -/
def bsig1 (x : Nat) : Nat := rotr 6 x ^^^ rotr 11 x ^^^ rotr 25 x

/-- `σ₀`. -/
def ssig0 (x : Nat) : Nat := rotr 7 x ^^^ rotr 18 x ^^^ (x >>> 3)

/-- `σ₁`. -/
def ssig1 (x : Nat) : Nat := rotr 17 x ^^^ rotr 19 x ^^^ (x >>> 10)

/-- The 64 SHA-256 round constants. -/
def K256 : List Nat :=
  [1116352408, 1899447441, 3049323471, 3921009573, 961987163, 1508970993,
   2453635748, 2870763221, 3624381080, 310598401, 607225278, 1426881987,
   1925078388, 2162078206, 2614888103, 3248222580, 3835390401, 4022224774,
   264347078, 604807628, 770255983, 1249150122, 1555081692, 1996064986,
   2554220882, 2821834349, 2952996808, 3210313671, 3336571891, 3584528711,
   113926993, 338241895, 666307205, 773529912, 1294757372, 1396182291,
   1695183700, 1986661051, 2177026350, 2456956037, 2730485921, 2820302411,
   3259730800, 3345764771, 3516065817, 3600352804, 4094571909, 275423344,
   430227734, 506948616, 659060556, 883997877, 958139571, 1322822218,
   1537002063, 1747873779, 1955562222, 2024104815, 2227730452, 2361852424,
   2428436474, 2756734187, 3204031479, 3329325298]

/-- Group bytes into big-endian 32-bit words (incomplete trailing group dropped;
blocks handed to it always have a multiple-of-4 length). -/
def toWords : List Nat → List Nat
  | b0 :: b1 :: b2 :: b3 :: rest =>
      (b0 * 16777216 + b1 * 65536 + b2 * 256 + b3) :: toWords rest
  | _ => []

/-- One message-schedule step.  `ws` is the schedule so far, newest word
first, and always holds at least 16 words. -/
def scheduleStep (ws : List Nat) : Nat :=
  match ws with
  | _ :: w2 :: _ :: _ :: _ :: _ :: w7 :: _ :: _ :: _ :: _ :: _ :: _ :: _ :: w15 :: w16 :: _ =>
      (ssig1 w2 + w7 + ssig0 w15 + w16) % M32
  | _ => 0

/-- Extend the schedule (newest first) by `n` more words. -/
def scheduleExt : Nat → List Nat → List Nat
  | 0, ws => ws
  | n + 1, ws => scheduleExt n (scheduleStep ws :: ws)

/-- The full 64-word message schedule of one block, oldest first. -/
def schedule (block : List Nat) : List Nat :=
  (scheduleExt 48 (toWords block).reverse).reverse

/-- The eight-word working state of the compression function. -/
abbrev St8 := Nat × Nat × Nat × Nat × Nat × Nat × Nat × Nat

/-- One compression round; `kw` is `K[t] + W[t]`. -/
def roundStep (kw : Nat) (s : St8) : St8 :=
  match s with
  | (a, b, c, d, e, f, g, h) =>
      let t1 := (h + bsig1 e + ch e f g + kw) % M32
      let t2 := (bsig0 a + maj a b c) % M32
      ((t1 + t2) % M32, a, b, c, (d + t1) % M32, e, f, g)

/-- The 64 compression rounds, consuming the `K[t] + W[t]` list in order. -/
def roundsLoop : List Nat → St8 → St8
  | [], s => s
  | kw :: rest, s => roundsLoop rest (roundStep kw s)

/-- Process one 64-byte block. -/
def compress (s : St8) (block : List Nat) : St8 :=
  let kws := List.zipWith (fun k w => (k + w) % M32) K256 (schedule block)
  match s, roundsLoop kws s with
  | (a0, b0, c0, d0, e0, f0, g0, h0), (a, b, c, d, e, f, g, h) =>
      ((a0 + a) % M32, (b0 + b) % M32, (c0 + c) % M32, (d0 + d) % M32,
       (e0 + e) % M32, (f0 + f) % M32, (g0 + g) % M32, (h0 + h) % M32)

/-- SHA-256 initial state. -/
def iv256 : St8 :=
  (1779033703, 3144134277, 1013904242, 2773480762,
   1359893119, 2600822924, 528734635, 1541459225)

/-- Big-endian 8-byte encoding of a 64-bit value. -/
def u64be (x : Nat) : List Nat :=
  [(x >>> 56) % 256, (x >>> 48) % 256, (x >>> 40) % 256, (x >>> 32) % 256,
   (x >>> 24) % 256, (x >>> 16) % 256, (x >>> 8) % 256, x % 256]

/-- FIPS 180-4 padding for a message of `len` bytes: `0x80`, zeros, then the
64-bit big-endian bit length, bringing the total to a multiple of 64. -/
def padSuffix (len : Nat) : List Nat :=
  128 :: List.replicate ((64 - (len + 9) % 64) % 64) 0 ++ u64be (len * 8)

/-- Fold the compression function over `n` consecutive 64-byte blocks. -/
def blocksLoop : Nat → St8 → List Nat → St8
  | 0, s, _ => s
  | n + 1, s, l => blocksLoop n (compress s (l.take 64)) (l.drop 64)

/-- Big-endian 4-byte encoding of a 32-bit word. -/
def u32be (x : Nat) : List Nat :=
  [(x >>> 24) % 256, (x >>> 16) % 256, (x >>> 8) % 256, x % 256]

/-- Serialize the final state to the 32-byte digest. -/
def stBytes (s : St8) : List Nat :=
  match s with
  | (a, b, c, d, e, f, g, h) =>
      u32be a ++ u32be b ++ u32be c ++ u32be d ++ u32be e ++ u32be f ++ u32be g ++ u32be h

/-- SHA-256 of a byte list, as a 32-byte list. -/
def sha256 (msg : List Nat) : List Nat :=
  let len := msg.length
  let padded := msg ++ padSuffix len
  stBytes (blocksLoop ((len + 9 + 63) / 64) iv256 padded)

/-! ## Hex encoding and decoding (Go encoding/hex, fmt %x) -/

/-- Lowercase hex digit, as used by `hex.EncodeToString` and `fmt %x`. -/
def hexDigit (n : Nat) : Nat := if n < 10 then 48 + n else 97 + (n - 10)

/-- Hex encoding of a byte list (lowercase), as a byte list of characters. -/
def hexBytes : List Nat → List Nat
  | [] => []
  | b :: rest => hexDigit (b / 16) :: hexDigit (b % 16) :: hexBytes rest

/-- Go `encoding/hex.fromHexChar`: value of one hex character, or `none`. -/
def fromHexChar (c : Nat) : Option Nat :=
  if 48 ≤ c ∧ c ≤ 57 then some (c - 48)
  else if 97 ≤ c ∧ c ≤ 102 then some (c - 97 + 10)
  else if 65 ≤ c ∧ c ≤ 70 then some (c - 65 + 10)
  else none

/-- Go `encoding/hex.Decode(dst, src)` loop.  `dst` is the destination
buffer, `i` the write index, the list argument the remaining source
characters.  Result: `(buffer, bytes written, error?)`; `none` models the
runtime panic of `dst[i]` when `i` is out of range (source longer than
twice the buffer).  On an invalid character, or a trailing odd character,
Go returns the bytes decoded so far together with an error, which the
only caller discards. -/
def hexDecodeLoop (dst : List Nat) (i : Nat) : List Nat → Option (List Nat × Nat × Bool)
  | p :: q :: rest =>
      match fromHexChar p with
      | none => some (dst, i, true)
      | some a =>
        match fromHexChar q with
        | none => some (dst, i, true)
        | some b =>
          if i < dst.length then hexDecodeLoop (dst.set i (a * 16 + b)) (i + 1) rest
          else none
  | [_] => some (dst, i, true)
  | [] => some (dst, i, false)

/-! ## src/glacier/treehash.go -/

/-- One reduction level of `treeHash` (the inner `for i` loop of
src/glacier/treehash.go:40-50 plus the odd-node promotion at line 48):
each adjacent pair is hashed, an unpaired trailing node is carried over
unchanged. -/
def levelStep : List (List Nat) → List (List Nat)
  | a :: b :: rest => sha256 (a ++ b) :: levelStep rest
  | l => l

/-- The outer `for len(nodes) > 1` loop of `treeHash`
(src/glacier/treehash.go:39-51), tracking the whole backing array.  Go
narrows the slice `nodes` in place: after one level, indices
`0 ≤ i < (len+1)/2` hold the new level and the rest of the backing array
is unchanged.  `arr` is the full backing array, `len` the current slice
length, and the fuel (first argument) is initialized to `len`, which
bounds the number of halving iterations.  Returns the final backing
array and slice length. -/
def treeHashGo : Nat → List (List Nat) → Nat → List (List Nat) × Nat
  | 0, arr, len => (arr, len)
  | fuel + 1, arr, len =>
      if len ≤ 1 then (arr, len)
      else treeHashGo fuel (levelStep (arr.take len) ++ arr.drop ((len + 1) / 2)) ((len + 1) / 2)

/-- The all-zero 32-byte digest (Go's zero value for `[sha256.Size]byte`). -/
def zeroDigest : List Nat := List.replicate 32 0

/-- `treeHash` (src/glacier/treehash.go:37-53): root of the reduction.
Go returns `nodes[0]` of the narrowed slice, which is the head of the
backing array; on an empty argument Go would panic (all callers guard),
modelled by the `headD` default. -/
def treeHash (nodes : List (List Nat)) : List Nat :=
  ((treeHashGo nodes.length nodes nodes.length).1).headD zeroDigest

/-- The backing array of `nodes` after a call `treeHash(nodes)` returned:
Go's `treeHash` writes the intermediate levels into the caller's slice. -/
def treeHashWreck (nodes : List (List Nat)) : List (List Nat) :=
  (treeHashGo nodes.length nodes nodes.length).1

/-- 1 MiB, the chunk size `1<<20`. -/
def CHUNK : Nat := 1048576

/-- State of a `TreeHash` value (src/glacier/treehash.go:62-68).
`runningHash`, a streaming SHA-256, is modelled by `linearAcc`, the bytes
written to it so far; `treeHashF`/`linearHashF` are the computed result
fields. -/
@[ext]
structure THState where
  remaining : List Nat
  nodes : List (List Nat)
  linearAcc : List Nat
  treeHashF : List Nat
  linearHashF : List Nat
deriving DecidableEq

/-- `NewTreeHash` / `Reset` (src/glacier/treehash.go:71-87): empty buffer,
no nodes, fresh running hash, zeroed result fields. -/
def initTH : THState :=
  { remaining := [], nodes := [], linearAcc := [],
    treeHashF := zeroDigest, linearHashF := zeroDigest }

/-- The `for len(p) >= 1<<20` loop of `Write`
(src/glacier/treehash.go:110-114): hash and flush each full chunk.  The
fuel is initialized to `p.length / CHUNK`, the exact number of
iterations. -/
def writeLoop : Nat → List (List Nat) → List Nat → List Nat →
    List (List Nat) × List Nat × List Nat
  | 0, nodes, acc, p => (nodes, acc, p)
  | fuel + 1, nodes, acc, p =>
      if CHUNK ≤ p.length then
        writeLoop fuel (nodes ++ [sha256 (p.take CHUNK)]) (acc ++ p.take CHUNK) (p.drop CHUNK)
      else (nodes, acc, p)

/-- `TreeHash.Write` (src/glacier/treehash.go:90-120), state part.  Below,
`CHUNK - th.remaining.length` is `fill`, `th.remaining ++ p.take fill` is
the filled 1 MiB chunk and `p.drop fill` is what the `for` loop consumes;
the three fields take the three components of the loop's result. -/
def THWrite (th : THState) (p : List Nat) : THState :=
  if th.remaining.length + p.length < CHUNK then
    { th with remaining := th.remaining ++ p }
  else
    { th with
      nodes := (writeLoop ((p.drop (CHUNK - th.remaining.length)).length / CHUNK)
        (th.nodes ++ [sha256 (th.remaining ++ p.take (CHUNK - th.remaining.length))])
        (th.linearAcc ++ (th.remaining ++ p.take (CHUNK - th.remaining.length)))
        (p.drop (CHUNK - th.remaining.length))).1,
      linearAcc := (writeLoop ((p.drop (CHUNK - th.remaining.length)).length / CHUNK)
        (th.nodes ++ [sha256 (th.remaining ++ p.take (CHUNK - th.remaining.length))])
        (th.linearAcc ++ (th.remaining ++ p.take (CHUNK - th.remaining.length)))
        (p.drop (CHUNK - th.remaining.length))).2.1,
      remaining := (writeLoop ((p.drop (CHUNK - th.remaining.length)).length / CHUNK)
        (th.nodes ++ [sha256 (th.remaining ++ p.take (CHUNK - th.remaining.length))])
        (th.linearAcc ++ (th.remaining ++ p.take (CHUNK - th.remaining.length)))
        (p.drop (CHUNK - th.remaining.length))).2.2 }

/-- `TreeHash.Write` with its full Go signature `(int, error)`: it writes
all of `p` and always returns `(len(p), nil)`. -/
def THWriteR (th : THState) (p : List Nat) : THState × Nat × Option String :=
  (THWrite th p, p.length, none)

/-- `TreeHash.Close` (src/glacier/treehash.go:123-135): flush the
remaining buffer (which is *not* cleared), compute the tree hash — note
that Go's `treeHash` overwrites the caller's `nodes` backing array, so
`nodes` becomes `treeHashWreck` of its previous value — and finalize the
linear hash. -/
def THClose (th : THState) : THState :=
  let th1 :=
    if 0 < th.remaining.length then
      { th with nodes := th.nodes ++ [sha256 th.remaining],
                linearAcc := th.linearAcc ++ th.remaining }
    else th
  let th2 :=
    if 0 < th1.nodes.length then
      { th1 with treeHashF := treeHash th1.nodes, nodes := treeHashWreck th1.nodes }
    else th1
  { th2 with linearHashF := sha256 th2.linearAcc }

/-- `TreeHash.TreeHash` (src/glacier/treehash.go:138-140): returns the
`treeHash` field as is, in any state. -/
def THTreeHash (th : THState) : List Nat := th.treeHashF

/-- `TreeHash.Hash` (src/glacier/treehash.go:143-145): returns the
`linearHash` field as is, in any state. -/
def THHash (th : THState) : List Nat := th.linearHashF

/-- `MultiTreeHasher.Add` (src/glacier/treehash.go:19-23): hex-decode
into a zero 32-byte buffer, ignore the returned error, append the buffer.
`none` propagates the decode panic on over-long input. -/
def MTHAdd (nodes : List (List Nat)) (h : List Nat) : Option (List (List Nat)) :=
  (hexDecodeLoop zeroDigest 0 h).map (fun r => nodes ++ [r.1])

/-- `MultiTreeHasher.CreateHash` (src/glacier/treehash.go:27-33). -/
def MTHCreateHash (nodes : List (List Nat)) : List Nat :=
  if nodes.length = 0 then [] else hexBytes (treeHash nodes)

/-! ## src/aws.go -/

/-- The `unreserved` table built by `init()` (src/aws.go:30-36): RFC 3986
unreserved characters — ASCII letters, digits, `-`, `_`, `.`, `~`. -/
def isUnreserved (c : Nat) : Bool :=
  (65 ≤ c && c ≤ 90) || (97 ≤ c && c ≤ 122) || (48 ≤ c && c ≤ 57) ||
    c == 45 || c == 95 || c == 46 || c == 126

/-- Uppercase hex digit (the `hex` constant of `encode`, src/aws.go:40). -/
def hexDigitU (n : Nat) : Nat := if n < 10 then 48 + n else 65 + (n - 10)

/-- Percent-encoding of one byte by `encode` (src/aws.go:54-64). -/
def encodeByte (c : Nat) : List Nat :=
  if 127 < c || !isUnreserved c then [37, hexDigitU (c / 16), hexDigitU (c % 16)]
  else [c]

/-- `encode` (src/aws.go:39-67).  The early return when no byte needs
encoding emits the input unchanged, which equals the bytewise expansion. -/
def encode (s : List Nat) : List Nat := (s.map encodeByte).flatten

/-- Go `net/url.QueryUnescape`: `%XX` decodes a byte (both digits must be
hex, else the whole unescape fails), `+` decodes to space. -/
def queryUnescape : List Nat → Option (List Nat)
  | [] => some []
  | 37 :: a :: b :: rest =>
      match fromHexChar a, fromHexChar b with
      | some x, some y => (queryUnescape rest).map (fun r => (x * 16 + y) :: r)
      | _, _ => none
  | 37 :: _ => none
  | 43 :: rest => (queryUnescape rest).map (fun r => 32 :: r)
  | c :: rest => (queryUnescape rest).map (fun r => c :: r)

/-- Split a byte string on a separator byte; the empty string yields one
empty component, like Go's `strings.Split`. -/
def splitOn (sep : Nat) : List Nat → List (List Nat)
  | [] => [[]]
  | c :: rest =>
      if c = sep then [] :: splitOn sep rest
      else match splitOn sep rest with
        | [] => [[c]]
        | comp :: comps => (c :: comp) :: comps

/-- Split one `key=value` component at the first `=`; a component without
`=` has the empty value (Go `url.parseQuery`). -/
def splitEq : List Nat → List Nat × List Nat
  | [] => ([], [])
  | 61 :: rest => ([], rest)
  | c :: rest =>
      match splitEq rest with
      | (k, v) => (c :: k, v)

/-- Append a value to a key of an association list of `url.Values`,
keeping first-insertion key order (Go map iteration order is arbitrary,
but the caller sorts the keys, so any fixed order is faithful). -/
def valuesAdd (k v : List Nat) : List (List Nat × List (List Nat)) →
    List (List Nat × List (List Nat))
  | [] => [(k, [v])]
  | (k0, vs) :: rest =>
      if k0 = k then (k0, vs ++ [v]) :: rest
      else (k0, vs) :: valuesAdd k v rest

/-- Go `url.ParseQuery`: split on `&`, reject any component containing a
semicolon, skip empty components, split each at the first `=`, unescape
key and value.  Any component error makes `ParseQuery` return a non-nil
error, which aborts `CreateCanonicalRequest`, modelled by `none`. -/
def parseQuery (raw : List Nat) : Option (List (List Nat × List (List Nat))) :=
  go (splitOn 38 raw) []
where
  go : List (List Nat) → List (List Nat × List (List Nat)) →
      Option (List (List Nat × List (List Nat)))
    | [], m => some m
    | comp :: comps, m =>
        if (comp.contains 59) then none
        else if comp = [] then go comps m
        else
          match splitEq comp with
          | (k, v) =>
            match queryUnescape k, queryUnescape v with
            | some k1, some v1 => go comps (valuesAdd k1 v1 m)
            | _, _ => none

/-- Go `sort.Strings` order: lexicographic byte order. -/
def strLeB : List Nat → List Nat → Bool
  | [], _ => true
  | _ :: _, [] => false
  | a :: as, b :: bs => if a < b then true else if b < a then false else strLeB as bs

/-- Lexicographic byte order as a relation. -/
def strLe (a b : List Nat) : Prop := strLeB a b = true

instance : DecidableRel strLe := fun a b =>
  inferInstanceAs (Decidable (strLeB a b = true))

/-- `sort.Strings` sorts ascending in lexicographic byte order; the
output is the sorted permutation of the input, which (byte strings being
totally ordered, equal elements being identical) is the same list
`insertionSort` produces. -/
def sortStrings (l : List (List Nat)) : List (List Nat) := List.insertionSort strLe l

/-- Look a key up in the parsed `url.Values`. -/
def valuesGet (m : List (List Nat × List (List Nat))) (k : List Nat) : List (List Nat) :=
  match m.find? (fun kv => kv.1 = k) with
  | some kv => kv.2
  | none => []

/-- The `(key, value)` pairs emitted by step 3 of `CreateCanonicalRequest`
(src/aws.go:150-172), still decoded: keys sorted by `sort.Strings` (raw
byte order), each key's values sorted likewise. -/
def canonicalPairs (m : List (List Nat × List (List Nat))) : List (List Nat × List Nat) :=
  (sortStrings (m.map Prod.fst)).flatMap
    (fun k => (sortStrings (valuesGet m k)).map (fun v => (k, v)))

/-- Step 3 of `CreateCanonicalRequest` (src/aws.go:148-182): the canonical
query string.  The nested `i > 0` / `j > 0` ampersands amount to
`&`-intercalation of the `encode(key)=encode(value)` pairs, every key
having at least one value. -/
def canonicalQuery (raw : List Nat) : Option (List Nat) :=
  (parseQuery raw).map fun m =>
    List.intercalate [38]
      ((canonicalPairs m).map (fun kv => encode kv.1 ++ [61] ++ encode kv.2))

/-- Modelled from the spec: §4.1's canonical query ordering — pairs
"ordered first by encoded key, then by encoded value", each key and value
re-encoded with the unreserved rule.  Differs from the source, which
sorts before encoding. -/
def canonicalQuerySpecEnc (raw : List Nat) : Option (List Nat) :=
  (parseQuery raw).map fun m =>
    let pairs := m.flatMap (fun kv => kv.2.map (fun v => (encode kv.1, encode v)))
    let sorted := List.insertionSort
      (fun a b : List Nat × List Nat =>
        (if a.1 = b.1 then strLeB a.2 b.2 else strLeB a.1 b.1) = true) pairs
    List.intercalate [38] (sorted.map (fun kv => kv.1 ++ [61] ++ kv.2))

/-! ### Path canonicalization (step 2 of `CreateCanonicalRequest`) -/

/-- The `for i` loop of the trailing-slash check (src/aws.go:124-129),
scanning indices `len-2` down to `1` for a byte that is neither `/` nor
`.`.  The argument is the next index to inspect; index `0` ends the loop
with `ts` still false.  `none` models an out-of-range read (never hit:
the index is always below the length). -/
def tsLoop (path : List Nat) : Nat → Option Bool
  | 0 => some false
  | i + 1 =>
      match path.get? (i + 1) with
      | none => none
      | some c => if c ≠ 47 ∧ c ≠ 46 then some true else tsLoop path i

/-- Lines 122-130 of src/aws.go: should the trailing slash be re-added
after `path.Clean`?  The unguarded read `r.URL.Path[len(r.URL.Path)-1]`
panics on an empty path, modelled by `none`. -/
def trailingSlash (path : List Nat) : Option Bool :=
  match path.get? (path.length - 1) with
  | none => none
  | some c => if c = 47 then tsLoop path (path.length - 2) else some false

/-- One `lazybuf` (Go package `path`): `buf` is the backing buffer, `w`
the logical length.  Appending overwrites at position `w`; truncation
just lowers `w`, leaving bytes readable by `index`. -/
structure Lazybuf where
  buf : List Nat
  w : Nat

/-- `lazybuf.append`. -/
def lbAppend (b : Lazybuf) (c : Nat) : Lazybuf :=
  { buf := b.buf.take b.w ++ [c], w := b.w + 1 }

/-- `lazybuf.index`. -/
def lbIndex (b : Lazybuf) (i : Nat) : Nat := b.buf.getD i 0

/-- The backtracking inner loop of `path.Clean`'s `..` case:
`for out.w > dotdot && out.index(out.w) != '/' { out.w-- }`.  Runs at
most `w` times; the fuel is initialized to `w`. -/
def cleanBack : Nat → Lazybuf → Nat → Lazybuf
  | 0, b, _ => b
  | fuel + 1, b, dotdot =>
      if dotdot < b.w ∧ lbIndex b b.w ≠ 47 then cleanBack fuel { b with w := b.w - 1 } dotdot
      else b

/-- The element-copying inner loop of `path.Clean`'s default case:
`for ; r < n && path[r] != '/'; r++ { out.append(path[r]) }`.
Returns the new `r` and buffer; fuel `n - r` bounds the iterations. -/
def cleanCopy (p : List Nat) (n : Nat) : Nat → Nat → Lazybuf → Nat × Lazybuf
  | 0, r, b => (r, b)
  | fuel + 1, r, b =>
      if r < n ∧ p.getD r 0 ≠ 47 then cleanCopy p n fuel (r + 1) (lbAppend b (p.getD r 0))
      else (r, b)

/-- The main `for r < n` loop of `path.Clean`.  Each iteration advances
`r` by at least one, so fuel `n` suffices. -/
def cleanLoop (p : List Nat) (n : Nat) (rooted : Bool) :
    Nat → Nat → Nat → Lazybuf → Lazybuf
  | 0, _, _, b => b
  | fuel + 1, r, dotdot, b =>
      if r < n then
        if p.getD r 0 = 47 then
          cleanLoop p n rooted fuel (r + 1) dotdot b
        else if p.getD r 0 = 46 ∧ (r + 1 = n ∨ p.getD (r + 1) 0 = 47) then
          cleanLoop p n rooted fuel (r + 1) dotdot b
        else if p.getD r 0 = 46 ∧ p.getD (r + 1) 0 = 46 ∧ (r + 2 = n ∨ p.getD (r + 2) 0 = 47) then
          if dotdot < b.w then
            cleanLoop p n rooted fuel (r + 2) dotdot (cleanBack b.w { b with w := b.w - 1 } dotdot)
          else if !rooted then
            let b1 := if 0 < b.w then lbAppend b 47 else b
            let b2 := lbAppend (lbAppend b1 46) 46
            cleanLoop p n rooted fuel (r + 2) b2.w b2
          else
            cleanLoop p n rooted fuel (r + 2) dotdot b
        else
          let b1 := if (rooted ∧ b.w ≠ 1) ∨ (¬rooted ∧ b.w ≠ 0) then lbAppend b 47 else b
          match cleanCopy p n (n - r) r b1 with
          | (r1, b2) => cleanLoop p n rooted fuel r1 dotdot b2
      else b

/-- Go `path.Clean` (the `path` package), as called at src/aws.go:132. -/
def pathClean (p : List Nat) : List Nat :=
  if p = [] then [46]
  else
    let rooted := p.getD 0 0 = 47
    let n := p.length
    let b0 : Lazybuf := { buf := [], w := 0 }
    let start := if rooted then (1, 1, lbAppend b0 47) else (0, 0, b0)
    match start with
    | (r, dotdot, b) =>
      let bf := cleanLoop p n rooted n r dotdot b
      if bf.w = 0 then [46] else bf.buf.take bf.w

/-- Lines 131-138 of src/aws.go: the canonical path.  `Clean(path)[1:]`
panics when `Clean` returns the empty string (it never does), modelled
by the checked slice; the segments are percent-encoded and rejoined with
leading slashes and the preserved trailing slash. -/
def canonicalPath (path : List Nat) : Option (List Nat) :=
  match trailingSlash path with
  | none => none
  | some ts =>
      let cleaned := pathClean path
      if cleaned = [] then none
      else
        let parts := splitOn 47 (cleaned.drop 1)
        let cp := parts.flatMap (fun seg => 47 :: encode seg)
        some (if ts then cp ++ [47] else cp)

/-! ### Signature computation -/

/-- HMAC-SHA256 (Go crypto/hmac with crypto/sha256: block size 64,
ipad `0x36`, opad `0x5c`). -/
def hmacSha256 (key msg : List Nat) : List Nat :=
  let k0 := if 64 < key.length then sha256 key else key
  let kp := k0 ++ List.replicate (64 - k0.length) 0
  sha256 ((kp.map (fun b => b ^^^ 92)) ++ sha256 ((kp.map (fun b => b ^^^ 54)) ++ msg))

/-- The bytes of `"AWS4"`. -/
def awsfour : List Nat := [65, 87, 83, 52]

/-- The bytes of `"aws4_request"`. -/
def aws4Request : List Nat := [97, 119, 115, 52, 95, 114, 101, 113, 117, 101, 115, 116]

/-- `CreateSignature` (src/aws.go:288-317).  The package variable
`v4SecretKey` is declared outside src/ and is modelled as the parameter
`secret`; everything else is the literal chain of the source: four
chained HMACs derive the key, a fifth HMAC signs `sts`, serialized with
`%x`.  (The interleaved `h.Sum(hh[:0])` calls do not affect subsequent
sums and carry no result.) -/
def CreateSignature (secret date region service sts : List Nat) : List Nat :=
  let h1 := hmacSha256 (awsfour ++ secret) date
  let h2 := hmacSha256 h1 region
  let h3 := hmacSha256 h2 service
  let h4 := hmacSha256 h3 aws4Request
  hexBytes (hmacSha256 h4 sts)

/-- Modelled from the spec: §4.3's `SigningKeyDeriver`,
`k0 = HMAC(key="AWS4"‖secret, date)`, `k1 = HMAC(k0, region)`,
`k2 = HMAC(k1, service)`, `signingKey = HMAC(k2, "aws4_request")`. -/
def signingKeySpec (secret date region service : List Nat) : List Nat :=
  hmacSha256 (hmacSha256 (hmacSha256 (hmacSha256 (awsfour ++ secret) date) region) service)
    aws4Request

/-! ## Basic properties of the tree reduction -/

theorem levelStep_nil : levelStep [] = [] := rfl

theorem levelStep_one (x : List Nat) : levelStep [x] = [x] := rfl

theorem levelStep_cons2 (a b : List Nat) (rest : List (List Nat)) :
    levelStep (a :: b :: rest) = sha256 (a ++ b) :: levelStep rest := rfl

theorem levelStep_length : ∀ ns : List (List Nat), (levelStep ns).length = (ns.length + 1) / 2
  | [] => rfl
  | [x] => by rw [levelStep_one]; norm_num
  | _ :: _ :: rest => by
      rw [levelStep_cons2, List.length_cons, levelStep_length rest]
      simp only [List.length_cons]
      omega

/-- The pure fixpoint of the reduction: repeat `levelStep` until a single
node remains (used only in proofs; `treeHash` is shown to agree). -/
def reducePure (ns : List (List Nat)) : List Nat :=
  if _h : ns.length ≤ 1 then ns.headD zeroDigest
  else reducePure (levelStep ns)
termination_by ns.length
decreasing_by rw [levelStep_length]; omega

theorem reducePure_step (ns : List (List Nat)) : reducePure ns = reducePure (levelStep ns) := by
  by_cases h : ns.length ≤ 1
  · match ns, h with
    | [], _ => rfl
    | [x], _ => rfl
  · rw [reducePure, dif_neg h]

theorem reducePure_one (x : List Nat) : reducePure [x] = x := by
  rw [reducePure]; rfl

theorem treeHashGo_headD :
    ∀ (fuel : Nat) (arr : List (List Nat)) (len : Nat), 1 ≤ len → len ≤ fuel →
      len ≤ arr.length →
      ((treeHashGo fuel arr len).1).headD zeroDigest = reducePure (arr.take len) := by
  intro fuel
  induction fuel with
  | zero => intro arr len h1 h2 _; omega
  | succ n ih =>
    intro arr len h1 hf hl
    by_cases hle : len ≤ 1
    · have hlen1 : len = 1 := by omega
      subst hlen1
      rw [treeHashGo, if_pos (by omega)]
      match arr, hl with
      | x :: rest, _ => simp [reducePure_one]
    · rw [treeHashGo, if_neg hle]
      have hlev : (levelStep (arr.take len)).length = (len + 1) / 2 := by
        rw [levelStep_length, List.length_take, min_eq_left hl]
      have harr : (len + 1) / 2 ≤ (levelStep (arr.take len) ++ arr.drop ((len + 1) / 2)).length := by
        rw [List.length_append, hlev]; omega
      rw [ih _ _ (by omega) (by omega) harr]
      have htake : (levelStep (arr.take len) ++ arr.drop ((len + 1) / 2)).take ((len + 1) / 2) =
          levelStep (arr.take len) := by
        rw [← hlev, List.take_left]
      rw [htake, ← reducePure_step]

theorem treeHash_eq_reduce (ns : List (List Nat)) : treeHash ns = reducePure ns := by
  match ns with
  | [] => rw [reducePure]; rfl
  | x :: rest =>
      rw [treeHash, treeHashGo_headD _ _ _ (by simp) le_rfl le_rfl, List.take_length]

theorem treeHash_one (x : List Nat) : treeHash [x] = x := rfl

theorem treeHash_two (a b : List Nat) : treeHash [a, b] = sha256 (a ++ b) := by
  rw [treeHash_eq_reduce, reducePure_step, levelStep_cons2, levelStep_nil, reducePure_one]

theorem treeHash_three (a b c : List Nat) :
    treeHash [a, b, c] = sha256 (sha256 (a ++ b) ++ c) := by
  rw [treeHash_eq_reduce, reducePure_step, levelStep_cons2, levelStep_one,
    reducePure_step, levelStep_cons2, levelStep_nil, reducePure_one]

theorem levelStep_odd_promote :
    ∀ (ns : List (List Nat)) (hne : ns ≠ []), ns.length % 2 = 1 →
      levelStep ns = levelStep ns.dropLast ++ [ns.getLast hne]
  | [], hne, _ => absurd rfl hne
  | [x], _, _ => rfl
  | [_, _], _, hodd => by simp at hodd
  | a :: b :: c :: rest, _, hodd => by
      have hne' : c :: rest ≠ [] := by simp
      have : (c :: rest).length % 2 = 1 := by
        simp only [List.length_cons] at hodd ⊢; omega
      rw [levelStep_cons2, levelStep_odd_promote (c :: rest) hne' this]
      simp [levelStep_cons2, List.getLast_cons]

/-- C1: `treeHash` of a single node returns it unhashed; of two nodes the
hash of their concatenation; of three nodes the promoted third is hashed
with the pair's hash; and at every reduction level an unpaired trailing
node of an odd-length level is carried over unchanged, never self-hashed
and never dropped. -/
theorem claim_C1 (h h1 h2 h3 : List Nat) (ns : List (List Nat))
    (hne : ns ≠ []) (hodd : ns.length % 2 = 1) :
    treeHash [h] = h ∧
    treeHash [h1, h2] = sha256 (h1 ++ h2) ∧
    treeHash [h1, h2, h3] = sha256 (sha256 (h1 ++ h2) ++ h3) ∧
    levelStep ns = levelStep ns.dropLast ++ [ns.getLast hne] :=
  ⟨treeHash_one h, treeHash_two h1 h2, treeHash_three h1 h2 h3,
    levelStep_odd_promote ns hne hodd⟩

/-! ## The canonical state reached by any write sequence -/

theorem CHUNK_pos : 0 < CHUNK := by norm_num [CHUNK]

/-- The maximal sequence of full `CHUNK`-sized chunks of a byte string
(proof-level description of the nodes a write sequence accumulates). -/
def chunksFull (p : List Nat) : List (List Nat) :=
  if _h : CHUNK ≤ p.length then p.take CHUNK :: chunksFull (p.drop CHUNK) else []
termination_by p.length
decreasing_by simp only [List.length_drop]; have := CHUNK_pos; omega

theorem chunksFull_eq (p : List Nat) :
    chunksFull p = if CHUNK ≤ p.length then p.take CHUNK :: chunksFull (p.drop CHUNK) else [] := by
  rw [chunksFull, dite_eq_ite]

theorem chunksFull_short (p : List Nat) (h : p.length < CHUNK) : chunksFull p = [] := by
  rw [chunksFull_eq, if_neg (by omega)]

theorem chunksFull_nil : chunksFull [] = [] :=
  chunksFull_short [] (by simpa using CHUNK_pos)

theorem chunksFull_exact (p : List Nat) (h : p.length = CHUNK) : chunksFull p = [p] := by
  rw [chunksFull_eq, if_pos (by omega), ← h, List.take_length,
    List.drop_eq_nil_of_le (by omega), chunksFull_nil]

theorem length_chunksFull (p : List Nat) : (chunksFull p).length = p.length / CHUNK := by
  by_cases h : CHUNK ≤ p.length
  · rw [chunksFull_eq, if_pos h, List.length_cons, length_chunksFull (p.drop CHUNK)]
    simp only [List.length_drop]
    simp only [CHUNK] at *
    omega
  · rw [chunksFull_short p (by omega), List.length_nil]
    simp only [CHUNK] at *
    omega
termination_by p.length
decreasing_by simp only [List.length_drop]; have := CHUNK_pos; omega

theorem chunksFull_append_small (B p : List Nat) (h : B.length % CHUNK + p.length < CHUNK) :
    chunksFull (B ++ p) = chunksFull B := by
  by_cases hc : CHUNK ≤ B.length
  · rw [chunksFull_eq (B ++ p), chunksFull_eq B, if_pos hc,
      if_pos (by simp only [List.length_append]; omega),
      List.take_append_of_le_length hc, List.drop_append_of_le_length hc,
      chunksFull_append_small (B.drop CHUNK) p
        (by simp only [List.length_drop]; simp only [CHUNK] at *; omega)]
  · rw [chunksFull_short B (by omega),
      chunksFull_short (B ++ p)
        (by simp only [List.length_append]; simp only [CHUNK] at *; omega)]
termination_by B.length
decreasing_by simp only [List.length_drop]; have := CHUNK_pos; omega

theorem chunksFull_append_mul (A C : List Nat) (h : A.length % CHUNK = 0) :
    chunksFull (A ++ C) = chunksFull A ++ chunksFull C := by
  by_cases hc : CHUNK ≤ A.length
  · rw [chunksFull_eq (A ++ C), chunksFull_eq A, if_pos hc,
      if_pos (by simp only [List.length_append]; omega),
      List.take_append_of_le_length hc, List.drop_append_of_le_length hc,
      chunksFull_append_mul (A.drop CHUNK) C
        (by simp only [List.length_drop]; simp only [CHUNK] at *; omega)]
    simp
  · have h0 : A.length = 0 := by simp only [CHUNK] at *; omega
    rw [List.length_eq_zero.mp h0]
    simp [chunksFull_nil]
termination_by A.length
decreasing_by simp only [List.length_drop]; have := CHUNK_pos; omega

/-- The state of a `TreeHash` after writing exactly the byte string `B`
from a fresh instance: full chunks hashed into nodes and fed to the
running hash, the remainder buffered. -/
def canon (B : List Nat) : THState :=
  { remaining := B.drop (B.length / CHUNK * CHUNK),
    nodes := (chunksFull B).map sha256,
    linearAcc := B.take (B.length / CHUNK * CHUNK),
    treeHashF := zeroDigest,
    linearHashF := zeroDigest }

theorem canon_nil : canon [] = initTH := by
  simp [canon, initTH, chunksFull_nil]

theorem writeLoop_spec (f : Nat) :
    ∀ (nodes : List (List Nat)) (acc q : List Nat), f = q.length / CHUNK →
      writeLoop f nodes acc q =
        (nodes ++ (chunksFull q).map sha256, acc ++ q.take (f * CHUNK), q.drop (f * CHUNK)) := by
  induction f with
  | zero =>
    intro nodes acc q hf
    have hq : q.length < CHUNK := by simp only [CHUNK] at *; omega
    rw [writeLoop, chunksFull_short q hq]
    simp
  | succ n ih =>
    intro nodes acc q hf
    have hc : CHUNK ≤ q.length := by simp only [CHUNK] at *; omega
    rw [writeLoop, if_pos hc,
      ih _ _ _ (by simp only [List.length_drop]; simp only [CHUNK] at *; omega),
      chunksFull_eq q, if_pos hc, Prod.mk.injEq, Prod.mk.injEq]
    refine ⟨by simp, ?_, ?_⟩
    · rw [List.append_assoc]
      congr 1
      rw [show (n + 1) * CHUNK = CHUNK + n * CHUNK by ring, List.take_add]
    · rw [List.drop_drop]
      congr 1
      ring

theorem THWrite_canon (B p : List Nat) : THWrite (canon B) p = canon (B ++ p) := by
  have hrem : (canon B).remaining = B.drop (B.length / CHUNK * CHUNK) := rfl
  have hmod : B.length % CHUNK < CHUNK := Nat.mod_lt _ CHUNK_pos
  have hrem_len : (canon B).remaining.length = B.length % CHUNK := by
    rw [hrem, List.length_drop]
    simp only [CHUNK] at *
    omega
  by_cases hcase : (canon B).remaining.length + p.length < CHUNK
  · rw [THWrite, if_pos hcase]
    rw [hrem_len] at hcase
    have hk : (B ++ p).length / CHUNK = B.length / CHUNK := by
      simp only [List.length_append]
      simp only [CHUNK] at *
      omega
    refine THState.ext ?_ ?_ ?_ rfl rfl
    · show B.drop (B.length / CHUNK * CHUNK) ++ p = (B ++ p).drop ((B ++ p).length / CHUNK * CHUNK)
      rw [hk, List.drop_append_of_le_length (Nat.div_mul_le_self _ _)]
    · show (chunksFull B).map sha256 = (chunksFull (B ++ p)).map sha256
      rw [chunksFull_append_small B p hcase]
    · show B.take (B.length / CHUNK * CHUNK) = (B ++ p).take ((B ++ p).length / CHUNK * CHUNK)
      rw [hk, List.take_append_of_le_length (Nat.div_mul_le_self _ _)]
  · rw [THWrite, if_neg hcase]
    rw [hrem_len] at hcase
    have hfl : ((canon B).remaining ++ p.take (CHUNK - (canon B).remaining.length)).length
        = CHUNK := by
      rw [List.length_append, List.length_take, hrem_len]
      omega
    rw [writeLoop_spec _ _ _ _ rfl]
    set q := p.drop (CHUNK - (canon B).remaining.length) with hq
    set filled := (canon B).remaining ++ p.take (CHUNK - (canon B).remaining.length) with hfilled
    set pre := B.take (B.length / CHUNK * CHUNK) with hpre
    -- decompose B ++ p into the aligned prefix, the filled chunk, and the loop input
    have hsplit : B ++ p = pre ++ (filled ++ q) := by
      rw [hfilled, hq, hrem, hpre, ← List.append_assoc, ← List.append_assoc,
        List.take_append_drop, List.append_assoc, List.take_append_drop]
    have hpre_len : pre.length = B.length / CHUNK * CHUNK := by
      rw [hpre, List.length_take, min_eq_left (Nat.div_mul_le_self _ _)]
    have hpre_mod : pre.length % CHUNK = 0 := by
      rw [hpre_len, Nat.mul_mod_left]
    have hchunks : chunksFull (B ++ p) = chunksFull pre ++ ([filled] ++ chunksFull q) := by
      rw [hsplit, chunksFull_append_mul _ _ hpre_mod,
        chunksFull_append_mul filled q (by rw [hfl, Nat.mod_self]), chunksFull_exact filled hfl]
    have hchB : chunksFull B = chunksFull pre := by
      conv_lhs => rw [← List.take_append_drop (B.length / CHUNK * CHUNK) B]
      rw [← hpre, ← hrem, chunksFull_append_mul _ _ hpre_mod,
        chunksFull_short (canon B).remaining (by rw [hrem_len]; exact hmod), List.append_nil]
    have hqlen : q.length = B.length % CHUNK + p.length - CHUNK := by
      rw [hq, List.length_drop, hrem_len]
      omega
    have harith : (B ++ p).length / CHUNK * CHUNK =
        pre.length + (filled.length + q.length / CHUNK * CHUNK) := by
      rw [hpre_len, hfl, List.length_append]
      simp only [CHUNK] at *
      omega
    refine THState.ext ?_ ?_ ?_ rfl rfl
    · show q.drop (q.length / CHUNK * CHUNK) = (B ++ p).drop ((B ++ p).length / CHUNK * CHUNK)
      rw [harith, hsplit, List.drop_append, List.drop_append]
    · show (canon B).nodes ++ [sha256 filled] ++ (chunksFull q).map sha256 =
        (chunksFull (B ++ p)).map sha256
      rw [hchunks, ← hchB]
      show (chunksFull B).map sha256 ++ [sha256 filled] ++ (chunksFull q).map sha256 = _
      simp
    · show (canon B).linearAcc ++ filled ++ q.take (q.length / CHUNK * CHUNK) =
        (B ++ p).take ((B ++ p).length / CHUNK * CHUNK)
      rw [harith, hsplit, List.take_append, List.take_append]
      show B.take (B.length / CHUNK * CHUNK) ++ filled ++ _ = _
      rw [← hpre, List.append_assoc]

theorem foldl_THWrite_canon (B : List Nat) :
    ∀ ps : List (List Nat), ps.foldl THWrite (canon B) = canon (B ++ ps.flatten)
  | [] => by simp
  | p :: ps => by
      rw [List.foldl_cons, THWrite_canon, foldl_THWrite_canon (B ++ p) ps]
      simp

theorem THWrite_single_canon (B : List Nat) : THWrite initTH B = canon B := by
  rw [← canon_nil, THWrite_canon]
  simp

/-- C3: writing any partition of a byte sequence, piece by piece, and
closing yields exactly the same tree hash and the same linear hash as a
single write of the whole sequence followed by close. -/
theorem claim_C3 (ps : List (List Nat)) :
    THTreeHash (THClose (ps.foldl THWrite initTH)) =
        THTreeHash (THClose (THWrite initTH ps.flatten)) ∧
      THHash (THClose (ps.foldl THWrite initTH)) =
        THHash (THClose (THWrite initTH ps.flatten)) := by
  rw [← canon_nil, foldl_THWrite_canon, THWrite_canon]
  simp

/-! ## The signature chain -/

/-- The derivation agrees with AWS's published signing-key test vector
(secret `"wJalrXUtnFEMI/K7MDENG+bPxRfiCYEXAMPLEKEY"`, scope
`20120215`/`us-east-1`/`iam`), grounding the HMAC-SHA256 embedding. -/
example :
    signingKeySpec
      [119, 74, 97, 108, 114, 88, 85, 116, 110, 70, 69, 77, 73, 47, 75, 55, 77, 68, 69, 78,
       71, 43, 98, 80, 120, 82, 102, 105, 67, 89, 69, 88, 65, 77, 80, 76, 69, 75, 69, 89]
      [50, 48, 49, 50, 48, 50, 49, 53]
      [117, 115, 45, 101, 97, 115, 116, 45, 49]
      [105, 97, 109] =
    [244, 120, 14, 45, 159, 101, 250, 137, 95, 156, 103, 179, 44, 225, 186, 240, 176, 216,
     164, 53, 5, 160, 0, 161, 169, 224, 144, 212, 20, 219, 64, 77] := by
  decide

/-- C2: the signature produced by `CreateSignature` is exactly
`hex(HMAC-SHA256(signingKey, stringToSign))`, where `signingKey` is
derived from the secret by the four chained HMACs of §4.3 — and that
derived key, not the raw secret, is the key of the final HMAC. -/
theorem claim_C2 (secret date region service sts : List Nat) :
    CreateSignature secret date region service sts =
      hexBytes (hmacSha256 (signingKeySpec secret date region service) sts) := rfl

/-! ## Close, and the state-lifecycle claims -/

theorem treeHashWreck_one (x : List Nat) : treeHashWreck [x] = [x] := rfl

theorem THClose_single (x t l acc : List Nat) :
    THClose (THState.mk [] [x] acc t l) = THState.mk [] [x] acc x (sha256 acc) := by
  simp [THClose, treeHash_one, treeHashWreck_one]

/-- C5's counterexample: after a 1-byte write, a second `close()` flushes
the still-buffered byte a second time and changes both finalized
results. -/
theorem claim_C5_counterexample :
    THTreeHash (THClose (THClose (THWrite initTH [0]))) ≠
        THTreeHash (THClose (THWrite initTH [0])) ∧
      THHash (THClose (THClose (THWrite initTH [0]))) ≠
        THHash (THClose (THWrite initTH [0])) := by
  decide

/-- C5 amended: `close()` is idempotent only in the states where nothing
is left buffered and at most one node exists — after writing nothing, or
after writing exactly one full 1 MiB chunk. -/
theorem claim_C5_amended (b : List Nat) (h : b = [] ∨ b.length = CHUNK) :
    THClose (THClose (THWrite initTH b)) = THClose (THWrite initTH b) := by
  rcases h with h | h
  · subst h; decide
  · rw [THWrite_single_canon]
    have hdiv : b.length / CHUNK * CHUNK = b.length := by
      rw [h, Nat.div_self CHUNK_pos, one_mul]
    have h1 : canon b = THState.mk [] [sha256 b] b zeroDigest zeroDigest := by
      refine THState.ext ?_ ?_ ?_ rfl rfl
      · show b.drop (b.length / CHUNK * CHUNK) = []
        rw [hdiv, List.drop_length]
      · show (chunksFull b).map sha256 = [sha256 b]
        rw [chunksFull_exact b h]; rfl
      · show b.take (b.length / CHUNK * CHUNK) = b
        rw [hdiv, List.take_length]
    rw [h1, THClose_single, THClose_single]

/-- Witness for the amended C5 at the empty write. -/
theorem claim_C5_witness :
    (([] : List Nat) = [] ∨ ([] : List Nat).length = CHUNK) ∧
      THClose (THClose (THWrite initTH [])) = THClose (THWrite initTH []) :=
  ⟨Or.inl rfl, claim_C5_amended [] (Or.inl rfl)⟩

/-- C6's counterexample: `write()` after `close()` does not fail — it
returns a nil error and buffers the new bytes after the already-flushed
ones. -/
theorem claim_C6_counterexample :
    (THWriteR (THClose (THWrite initTH [1])) [2]).2.2 = none ∧
      (THWriteR (THClose (THWrite initTH [1])) [2]).1.remaining = [1, 2] := by
  decide

/-- C6 amended: `write()` never returns an error, in any state (closed
included), and by itself never alters the finalized result fields. -/
theorem claim_C6_amended (th : THState) (p : List Nat) :
    (THWriteR th p).2.2 = none ∧
      (THWriteR th p).1.treeHashF = th.treeHashF ∧
      (THWriteR th p).1.linearHashF = th.linearHashF := by
  refine ⟨rfl, ?_, ?_⟩
  · show (THWrite th p).treeHashF = th.treeHashF
    rw [THWrite]
    split <;> rfl
  · show (THWrite th p).linearHashF = th.linearHashF
    rw [THWrite]
    split <;> rfl

/-- C8's counterexample: reading the tree or linear hash before `close()`
does not fail — it returns the all-zero 32-byte value. -/
theorem claim_C8_counterexample :
    THTreeHash (THWrite initTH [1]) = List.replicate 32 0 ∧
      THHash (THWrite initTH [1]) = List.replicate 32 0 := by
  decide

/-- C8 amended: before the first `close()`, after any sequence of writes
from a fresh instance, `treeHash()` and `hash()` return the all-zero
32-byte digest rather than failing. -/
theorem claim_C8_amended (ps : List (List Nat)) :
    THTreeHash (ps.foldl THWrite initTH) = List.replicate 32 0 ∧
      THHash (ps.foldl THWrite initTH) = List.replicate 32 0 := by
  rw [← canon_nil, foldl_THWrite_canon]
  exact ⟨rfl, rfl⟩

/-- C7's counterexample: `Add` of the malformed hex string `"zz"` does
not fail — it appends the untouched zero buffer as a node. -/
theorem claim_C7_counterexample :
    MTHAdd [] [122, 122] = some [List.replicate 32 0] := by
  decide

/-- C7 amended: whenever the decode does not overrun the 32-byte buffer
(source at most 64 hex digits), `Add` appends the buffer in call order no
matter whether decoding succeeded, failed on a bad character, or stopped
at an odd tail — the error is silently dropped. -/
theorem claim_C7_amended (nodes : List (List Nat)) (h buf : List Nat) (i : Nat) (e : Bool)
    (hdec : hexDecodeLoop zeroDigest 0 h = some (buf, i, e)) :
    MTHAdd nodes h = some (nodes ++ [buf]) := by
  rw [MTHAdd, hdec]
  rfl

/-- Witness for the amended C7 at the valid two-digit input `"ff"`. -/
theorem claim_C7_witness :
    hexDecodeLoop zeroDigest 0 [102, 102] = some (255 :: List.replicate 31 0, 1, false) ∧
      MTHAdd [] [102, 102] = some ([] ++ [255 :: List.replicate 31 0]) :=
  ⟨by decide, claim_C7_amended [] [102, 102] _ 1 false (by decide)⟩

/-! ## Safety of the path canonicalization -/

theorem tsLoop_isSome (path : List Nat) :
    ∀ i : Nat, i + 1 < path.length ∨ i = 0 → (tsLoop path i).isSome := by
  intro i
  induction i with
  | zero => intro _; rw [tsLoop]; rfl
  | succ n ih =>
    intro h
    have hlt : n + 2 < path.length := by omega
    rw [tsLoop, List.get?_eq_get (show n + 1 < path.length by omega)]
    show (if _ ∧ _ then some true else tsLoop path n).isSome
    split
    · rfl
    · exact ih (by omega)

theorem trailingSlash_isSome (path : List Nat) (h : path ≠ []) :
    (trailingSlash path).isSome := by
  have hlen : 0 < path.length := List.length_pos.2 h
  rw [trailingSlash, List.get?_eq_get (show path.length - 1 < path.length by omega)]
  show (if _ = 47 then tsLoop path (path.length - 2) else some false).isSome
  split
  · exact tsLoop_isSome path _ (by omega)
  · rfl

/-- Well-formedness of a `Lazybuf`: the logical length never exceeds the
backing buffer. -/
def lbWF (b : Lazybuf) : Prop := b.w ≤ b.buf.length

theorem lbAppend_wf {b : Lazybuf} (h : lbWF b) (c : Nat) : lbWF (lbAppend b c) := by
  simp only [lbWF, lbAppend, List.length_append, List.length_take, List.length_cons,
    List.length_nil] at *
  omega

theorem cleanBack_wf : ∀ (fuel : Nat) (b : Lazybuf) (dd : Nat), lbWF b →
    lbWF (cleanBack fuel b dd) := by
  intro fuel
  induction fuel with
  | zero => intro b dd h; exact h
  | succ n ih =>
    intro b dd h
    rw [cleanBack]
    split
    · exact ih _ _ (by simp only [lbWF] at *; omega)
    · exact h

theorem cleanCopy_wf (p : List Nat) (n : Nat) : ∀ (fuel r : Nat) (b : Lazybuf), lbWF b →
    lbWF (cleanCopy p n fuel r b).2 := by
  intro fuel
  induction fuel with
  | zero => intro r b h; exact h
  | succ f ih =>
    intro r b h
    rw [cleanCopy]
    split
    · exact ih _ _ (lbAppend_wf h _)
    · exact h

theorem cleanLoop_wf (p : List Nat) (n : Nat) (rooted : Bool) :
    ∀ (fuel r dd : Nat) (b : Lazybuf), lbWF b → lbWF (cleanLoop p n rooted fuel r dd b) := by
  intro fuel
  induction fuel with
  | zero => intro r dd b h; exact h
  | succ f ih =>
    intro r dd b h
    rw [cleanLoop]
    split
    · split
      · exact ih _ _ _ h
      · split
        · exact ih _ _ _ h
        · split
          · split
            · exact ih _ _ _ (cleanBack_wf _ _ _ (by simp only [lbWF] at *; omega))
            · split
              · apply ih
                apply lbAppend_wf (lbAppend_wf _ _) _
                split
                · exact lbAppend_wf h _
                · exact h
              · exact ih _ _ _ h
          · apply ih
            apply cleanCopy_wf
            split
            · exact lbAppend_wf h _
            · exact h
    · exact h

theorem pathClean_ne_nil (p : List Nat) : pathClean p ≠ [] := by
  rw [pathClean]
  split
  · simp
  · have hwf : lbWF (cleanLoop p p.length (p.getD 0 0 = 47) p.length
        (if p.getD 0 0 = 47 then 1 else 0) (if p.getD 0 0 = 47 then 1 else 0)
        (if p.getD 0 0 = 47 then lbAppend { buf := [], w := 0 } 47
          else { buf := [], w := 0 })) := by
      apply cleanLoop_wf
      split
      · exact lbAppend_wf (by simp [lbWF]) _
      · simp [lbWF]
    show (let rooted := p.getD 0 0 = 47
          let n := p.length
          let b0 : Lazybuf := { buf := [], w := 0 }
          let start := if rooted then (1, 1, lbAppend b0 47) else (0, 0, b0)
          match start with
          | (r, dotdot, b) =>
            let bf := cleanLoop p n rooted n r dotdot b
            if bf.w = 0 then [46] else bf.buf.take bf.w) ≠ []
    by_cases hr : p.getD 0 0 = 47
    · simp only [hr, if_true, if_pos]
      split
      · simp
      · rename_i hw
        intro hnil
        rw [List.take_eq_nil_iff] at hnil
        have := hwf
        simp only [hr, if_true] at this
        rcases hnil with hnil | hnil
        · exact hw hnil
        · simp only [lbWF, hnil, List.length_nil, Nat.le_zero] at this
          exact hw this
    · simp only [hr, if_false]
      split
      · simp
      · rename_i hw
        intro hnil
        rw [List.take_eq_nil_iff] at hnil
        have := hwf
        simp only [hr, if_false] at this
        rcases hnil with hnil | hnil
        · exact hw hnil
        · simp only [lbWF, hnil, List.length_nil, Nat.le_zero] at this
          exact hw this

/-- C10: for every non-empty URL path, the trailing-slash check, the
`Clean(...)[1:]` slice, and the segment encoding all stay in bounds: the
canonicalization returns a value.  (The empty path is outside the domain:
the first index into the path is unguarded.) -/
theorem claim_C10 (p : List Nat) (h : p ≠ []) : (canonicalPath p).isSome := by
  obtain ⟨ts, hts⟩ := Option.isSome_iff_exists.mp (trailingSlash_isSome p h)
  rw [canonicalPath, hts]
  show (if pathClean p = [] then none
    else some (if ts then _ ++ [47] else _)).isSome
  rw [if_neg (pathClean_ne_nil p)]
  rfl

/-- Witness for C10 at the root path `"/"`. -/
theorem claim_C10_witness :
    ([47] : List Nat) ≠ [] ∧ (canonicalPath [47]).isSome :=
  ⟨by decide, claim_C10 [47] (by decide)⟩

/-! ## Canonical query ordering -/

theorem strLeB_total : ∀ a b : List Nat, strLeB a b = true ∨ strLeB b a = true
  | [], _ => Or.inl rfl
  | _ :: _, [] => Or.inr rfl
  | a :: as, b :: bs => by
      rcases Nat.lt_trichotomy a b with h | h | h
      · left
        simp only [strLeB]
        rw [if_pos h]
      · subst h
        rcases strLeB_total as bs with ih | ih
        · left
          simp only [strLeB]
          rw [if_neg (lt_irrefl a), if_neg (lt_irrefl a)]
          exact ih
        · right
          simp only [strLeB]
          rw [if_neg (lt_irrefl a), if_neg (lt_irrefl a)]
          exact ih
      · right
        simp only [strLeB]
        rw [if_pos h]

theorem strLeB_trans : ∀ a b c : List Nat,
    strLeB a b = true → strLeB b c = true → strLeB a c = true
  | [], _, _, _, _ => rfl
  | _ :: _, [], _, h1, _ => by simp [strLeB] at h1
  | _ :: _, _ :: _, [], _, h2 => by simp [strLeB] at h2
  | a :: as, b :: bs, c :: cs, h1, h2 => by
      simp only [strLeB] at h1 h2 ⊢
      split_ifs at h1 h2 ⊢ <;>
        first
          | rfl
          | omega
          | exact strLeB_trans as bs cs h1 h2

instance : IsTotal (List Nat) strLe := ⟨fun a b => strLeB_total a b⟩

instance : IsTrans (List Nat) strLe := ⟨fun a b c => strLeB_trans a b c⟩

theorem valuesAdd_keys (k v : List Nat) :
    ∀ m : List (List Nat × List (List Nat)),
      (valuesAdd k v m).map Prod.fst =
        if k ∈ m.map Prod.fst then m.map Prod.fst else m.map Prod.fst ++ [k]
  | [] => by simp [valuesAdd]
  | (k0, vs) :: rest => by
      rw [valuesAdd]
      by_cases hk : k0 = k
      · subst hk
        rw [if_pos rfl]
        simp
      · rw [if_neg hk]
        simp only [List.map_cons, List.mem_cons]
        rw [valuesAdd_keys k v rest]
        by_cases hmem : k ∈ rest.map Prod.fst
        · rw [if_pos hmem, if_pos (Or.inr hmem)]
        · rw [if_neg hmem, if_neg (by rintro (h | h); exact hk h.symm; exact hmem h)]
          simp

theorem valuesAdd_nodup (k v : List Nat) (m : List (List Nat × List (List Nat)))
    (h : (m.map Prod.fst).Nodup) : ((valuesAdd k v m).map Prod.fst).Nodup := by
  rw [valuesAdd_keys]
  split
  · exact h
  · rename_i hnot
    rw [List.nodup_append]
    refine ⟨h, List.nodup_singleton k, ?_⟩
    intro a ha hb
    rw [List.mem_singleton] at hb
    subst hb
    exact hnot ha

theorem parseQuery_go_nodup :
    ∀ (comps : List (List Nat)) (m : List (List Nat × List (List Nat))),
      (m.map Prod.fst).Nodup → ∀ m', parseQuery.go comps m = some m' →
        (m'.map Prod.fst).Nodup := by
  intro comps
  induction comps with
  | nil =>
    intro m h m' hm'
    rw [parseQuery.go] at hm'
    cases hm'
    exact h
  | cons c cs ih =>
    intro m h m' hm'
    rw [parseQuery.go] at hm'
    split at hm'
    · cases hm'
    · split at hm'
      · exact ih m h m' hm'
      · split at hm'
        split at hm'
        · exact ih _ (valuesAdd_nodup _ _ _ h) m' hm'
        · cases hm'

theorem parseQuery_nodup (raw : List Nat) (m : List (List Nat × List (List Nat)))
    (h : parseQuery raw = some m) : (m.map Prod.fst).Nodup :=
  parseQuery_go_nodup _ [] (by simp) m h

/-- Pair order "first by (decoded) key, then by (decoded) value". -/
def pairLeDec (a b : List Nat × List Nat) : Prop :=
  (a.1 = b.1 ∧ strLe a.2 b.2) ∨ (a.1 ≠ b.1 ∧ strLe a.1 b.1)

theorem canonicalPairs_sorted (m : List (List Nat × List (List Nat)))
    (h : (m.map Prod.fst).Nodup) : (canonicalPairs m).Pairwise pairLeDec := by
  rw [canonicalPairs, List.pairwise_flatMap]
  constructor
  · intro k _
    rw [List.pairwise_map]
    have hs : (sortStrings (valuesGet m k)).Pairwise strLe :=
      List.sorted_insertionSort strLe _
    exact hs.imp (fun hab => Or.inl ⟨rfl, hab⟩)
  · have hsorted : (sortStrings (m.map Prod.fst)).Pairwise strLe :=
      List.sorted_insertionSort strLe _
    have hnd : (sortStrings (m.map Prod.fst)).Nodup :=
      ((List.perm_insertionSort strLe _).nodup_iff).mpr h
    refine (hsorted.and hnd).imp ?_
    rintro a b ⟨hle, hne⟩ x hx y hy
    rw [List.mem_map] at hx hy
    obtain ⟨xv, _, rfl⟩ := hx
    obtain ⟨yv, _, rfl⟩ := hy
    exact Or.inr ⟨hne, hle⟩

/-- C9's counterexample: the code sorts keys and values *before*
re-encoding, so for the query `"A=1&[=2"` the emitted pairs are not in
encoded-key order: the code yields `"A=1&%5B=2"` while the spec's
encoded-order construction yields `"%5B=2&A=1"`. -/
theorem claim_C9_counterexample :
    canonicalQuery [65, 61, 49, 38, 91, 61, 50] =
        some [65, 61, 49, 38, 37, 53, 66, 61, 50] ∧
      canonicalQuerySpecEnc [65, 61, 49, 38, 91, 61, 50] =
        some [37, 53, 66, 61, 50, 38, 65, 61, 49] ∧
      canonicalQuery [65, 61, 49, 38, 91, 61, 50] ≠
        canonicalQuerySpecEnc [65, 61, 49, 38, 91, 61, 50] := by
  decide

/-- C9 amended: the canonical query string is the `&`-joined
`encode(key)=encode(value)` pairs ordered first by *decoded* key and then
by *decoded* value (repeated keys once per value, value-sorted); in
particular `"b=2&a=1&a=3"` canonicalizes to `"a=1&a=3&b=2"`. -/
theorem claim_C9_amended (raw : List Nat) (m : List (List Nat × List (List Nat)))
    (hm : parseQuery raw = some m) :
    canonicalQuery raw =
        some (List.intercalate [38]
          ((canonicalPairs m).map (fun kv => encode kv.1 ++ [61] ++ encode kv.2))) ∧
      (canonicalPairs m).Pairwise pairLeDec ∧
      canonicalQuery [98, 61, 50, 38, 97, 61, 49, 38, 97, 61, 51] =
        some [97, 61, 49, 38, 97, 61, 51, 38, 98, 61, 50] := by
  refine ⟨?_, canonicalPairs_sorted m (parseQuery_nodup raw m hm), by decide⟩
  rw [canonicalQuery, hm]
  rfl

/-- Witness for the amended C9 at the query `"k=v"`. -/
theorem claim_C9_witness :
    parseQuery [107, 61, 118] = some [([107], [[118]])] ∧
      (canonicalQuery [107, 61, 118] =
          some (List.intercalate [38]
            ((canonicalPairs [([107], [[118]])]).map
              (fun kv => encode kv.1 ++ [61] ++ encode kv.2))) ∧
        (canonicalPairs [([107], [[118]])]).Pairwise pairLeDec ∧
        canonicalQuery [98, 61, 50, 38, 97, 61, 49, 38, 97, 61, 51] =
          some [97, 61, 49, 38, 97, 61, 51, 38, 98, 61, 50]) :=
  ⟨by decide, claim_C9_amended [107, 61, 118] [([107], [[118]])] (by decide)⟩

/-! ## Multipart composition: leaves, digest well-formedness, hex -/

/-- The leaf digests a `TreeHash` commits for a body `B`: the hashes of
its full chunks, then the hash of the non-empty remainder. -/
def leavesOf (B : List Nat) : List (List Nat) :=
  (chunksFull B).map sha256 ++
    (if B.drop (B.length / CHUNK * CHUNK) = [] then []
     else [sha256 (B.drop (B.length / CHUNK * CHUNK))])

theorem THClose_treeHashF_of_rem_nil (th : THState) (h : th.remaining = [])
    (h2 : th.nodes ≠ []) : (THClose th).treeHashF = treeHash th.nodes := by
  simp [THClose, h, List.length_pos.2 h2]

theorem THClose_treeHashF_of_rem_pos (th : THState) (h : th.remaining ≠ []) :
    (THClose th).treeHashF = treeHash (th.nodes ++ [sha256 th.remaining]) := by
  simp [THClose, List.length_pos.2 h]

theorem partRoot_eq (B : List Nat) (h : B ≠ []) :
    THTreeHash (THClose (THWrite initTH B)) = treeHash (leavesOf B) := by
  rw [THWrite_single_canon]
  by_cases hrem : B.drop (B.length / CHUNK * CHUNK) = []
  · have hlen : 0 < B.length := List.length_pos.2 h
    have hdrop : B.length ≤ B.length / CHUNK * CHUNK := List.drop_eq_nil_iff.mp hrem
    have hk : 0 < B.length / CHUNK := by
      simp only [CHUNK] at *
      omega
    have hnodes : (canon B).nodes ≠ [] := by
      show (chunksFull B).map sha256 ≠ []
      rw [← List.length_pos, List.length_map, length_chunksFull]
      exact hk
    rw [THTreeHash, THClose_treeHashF_of_rem_nil _ hrem hnodes, leavesOf, if_pos hrem,
      List.append_nil]
    rfl
  · rw [THTreeHash, THClose_treeHashF_of_rem_pos _ hrem, leavesOf, if_neg hrem]
    rfl

/-- A well-formed digest: 32 bytes, each below 256. -/
def goodDigest (d : List Nat) : Prop := d.length = 32 ∧ ∀ b ∈ d, b < 256

theorem u32be_lt (w : Nat) : ∀ b ∈ u32be w, b < 256 := by
  intro b hb
  simp only [u32be, List.mem_cons, List.not_mem_nil, or_false] at hb
  rcases hb with rfl | rfl | rfl | rfl <;> exact Nat.mod_lt _ (by norm_num)

theorem goodDigest_sha256 (msg : List Nat) : goodDigest (sha256 msg) := by
  rw [sha256]
  rcases blocksLoop ((msg.length + 9 + 63) / 64) iv256 (msg ++ padSuffix msg.length) with
    ⟨a, b, c, d, e, f, g, h⟩
  constructor
  · simp [stBytes, u32be]
  · intro x hx
    simp only [stBytes, List.mem_append] at hx
    rcases hx with ((((((hx | hx) | hx) | hx) | hx) | hx) | hx) | hx <;>
      exact u32be_lt _ _ hx

theorem levelStep_mem : ∀ (ns : List (List Nat)) (x : List Nat), x ∈ levelStep ns →
    (∃ a b, x = sha256 (a ++ b)) ∨ x ∈ ns
  | [], x, hx => by simp [levelStep_nil] at hx
  | [y], x, hx => by
      rw [levelStep_one] at hx
      exact Or.inr hx
  | a :: b :: rest, x, hx => by
      rw [levelStep_cons2, List.mem_cons] at hx
      rcases hx with rfl | hx
      · exact Or.inl ⟨a, b, rfl⟩
      · rcases levelStep_mem rest x hx with h | h
        · exact Or.inl h
        · exact Or.inr (by simp [h])

theorem goodDigest_treeHash (ns : List (List Nat)) (h : ns ≠ [])
    (hall : ∀ d ∈ ns, goodDigest d) : goodDigest (treeHash ns) := by
  by_cases hlen : ns.length ≤ 1
  · match ns, h with
    | [x], _ => rw [treeHash_one]; exact hall x (by simp)
  · rw [treeHash_eq_reduce, reducePure_step, ← treeHash_eq_reduce]
    refine goodDigest_treeHash (levelStep ns) ?_ ?_
    · rw [← List.length_pos, levelStep_length]
      omega
    · intro d hd
      rcases levelStep_mem ns d hd with ⟨a, b, rfl⟩ | hd'
      · exact goodDigest_sha256 _
      · exact hall d hd'
termination_by ns.length
decreasing_by rw [levelStep_length]; omega

theorem fromHexChar_hexDigit (n : Nat) (h : n < 16) : fromHexChar (hexDigit n) = some n := by
  revert h
  revert n
  decide

theorem hexDecodeLoop_cons (dst : List Nat) (i : Nat) (p q : Nat) (rest : List Nat)
    (a b : Nat) (hp : fromHexChar p = some a) (hq : fromHexChar q = some b) :
    hexDecodeLoop dst i (p :: q :: rest) =
      if i < dst.length then hexDecodeLoop (dst.set i (a * 16 + b)) (i + 1) rest
      else none := by
  rw [hexDecodeLoop, hp, hq]

theorem hexDecodeLoop_encode :
    ∀ (ds pre suf : List Nat), (∀ b ∈ ds, b < 256) → ds.length ≤ suf.length →
      hexDecodeLoop (pre ++ suf) pre.length (hexBytes ds) =
        some (pre ++ ds ++ suf.drop ds.length, pre.length + ds.length, false)
  | [], pre, suf, _, _ => by simp [hexBytes, hexDecodeLoop]
  | b :: rest, pre, suf, hlt, hle => by
      match suf, hle with
      | s0 :: suf', hle2 =>
        have hb : b < 256 := hlt b (by simp)
        rw [hexBytes,
          hexDecodeLoop_cons _ _ _ _ _ _ _ (fromHexChar_hexDigit (b / 16) (by omega))
            (fromHexChar_hexDigit (b % 16) (by omega))]
        rw [if_pos (by simp only [List.length_append, List.length_cons]; omega)]
        have hset : (pre ++ s0 :: suf').set pre.length (b / 16 * 16 + b % 16) =
            (pre ++ [b]) ++ suf' := by
          rw [List.set_append, if_neg (by omega)]
          simp only [Nat.sub_self, List.set_cons_zero]
          rw [show b / 16 * 16 + b % 16 = b by omega]
          simp
        rw [hset,
          show pre.length + 1 = (pre ++ [b]).length by simp,
          hexDecodeLoop_encode rest (pre ++ [b]) suf' (fun x hx => hlt x (by simp [hx]))
            (by simp only [List.length_cons] at hle2; omega)]
        simp only [List.length_append, List.length_cons, List.length_singleton,
          List.length_nil]
        rw [Option.some.injEq, Prod.mk.injEq, Prod.mk.injEq]
        refine ⟨by simp, by omega, rfl⟩

theorem MTHAdd_hexBytes (nodes : List (List Nat)) (d : List Nat) (hd : goodDigest d) :
    MTHAdd nodes (hexBytes d) = some (nodes ++ [d]) := by
  have h0 := hexDecodeLoop_encode d [] zeroDigest hd.2
    (by rw [hd.1]; simp [zeroDigest])
  simp only [List.nil_append, List.length_nil, Nat.zero_add] at h0
  rw [MTHAdd, h0]
  have hdrop : zeroDigest.drop d.length = [] := by
    rw [hd.1]; rfl
  rw [hdrop]
  simp

/-- Feeding hex digests to `Add` in order from a fresh `MultiTreeHasher`,
propagating the decode panic. -/
def mthFold (hs : List (List Nat)) : Option (List (List Nat)) :=
  hs.foldl (fun acc h => acc.bind (fun nodes => MTHAdd nodes h)) (some [])

/-- The hex tree hash of one part, as uploaded and fed to `Add`. -/
def partRootHex (p : List Nat) : List Nat :=
  hexBytes (THTreeHash (THClose (THWrite initTH p)))

theorem mthFold_go :
    ∀ (ds : List (List Nat)) (nodes : List (List Nat)), (∀ d ∈ ds, goodDigest d) →
      (ds.map hexBytes).foldl (fun acc h => acc.bind (fun ns => MTHAdd ns h)) (some nodes) =
        some (nodes ++ ds)
  | [], nodes, _ => by simp
  | d :: rest, nodes, hwf => by
      rw [List.map_cons, List.foldl_cons]
      have h1 : ((some nodes).bind fun ns => MTHAdd ns (hexBytes d)) = some (nodes ++ [d]) := by
        rw [Option.some_bind, MTHAdd_hexBytes nodes d (hwf d (by simp))]
      rw [h1, mthFold_go rest (nodes ++ [d]) (fun x hx => hwf x (by simp [hx]))]
      simp

/-! ## Composition of tree reductions over aligned parts -/

theorem levelStep_append_even : ∀ (xs ys : List (List Nat)), xs.length % 2 = 0 →
    levelStep (xs ++ ys) = levelStep xs ++ levelStep ys
  | [], _, _ => by simp [levelStep_nil]
  | [_], _, h => by simp at h
  | a :: b :: rest, ys, h => by
      rw [List.cons_append, List.cons_append, levelStep_cons2, levelStep_cons2,
        levelStep_append_even rest ys (by simp only [List.length_cons] at h ⊢; omega),
        List.cons_append]

theorem treeHash_levelStep (ns : List (List Nat)) : treeHash ns = treeHash (levelStep ns) := by
  rw [treeHash_eq_reduce, treeHash_eq_reduce]
  exact reducePure_step ns

theorem levelStep_flatten : ∀ Ls : List (List (List Nat)),
    (∀ L ∈ Ls.dropLast, L.length % 2 = 0) →
    levelStep Ls.flatten = (Ls.map levelStep).flatten
  | [], _ => rfl
  | [L], _ => by simp
  | L :: L2 :: rest, h => by
      have hL : L.length % 2 = 0 := h L (by simp)
      rw [List.flatten_cons, levelStep_append_even L _ hL,
        levelStep_flatten (L2 :: rest) (fun L' hL' => h L' (by simp at hL' ⊢; exact Or.inr hL'))]
      simp

theorem flatten_of_singletons : ∀ Ls : List (List (List Nat)),
    (∀ L ∈ Ls, L.length = 1) → Ls.flatten = Ls.map treeHash
  | [], _ => rfl
  | L :: rest, h => by
      obtain ⟨x, rfl⟩ := List.length_eq_one.mp (h L (by simp))
      rw [List.flatten_cons, List.map_cons, treeHash_one,
        flatten_of_singletons rest (fun L' hL' => h L' (by simp [hL']))]
      rfl

theorem treeHash_flatten_pow (k : Nat) : ∀ Ls : List (List (List Nat)), Ls ≠ [] →
    (∀ L ∈ Ls.dropLast, L.length = 2 ^ k) →
    (∀ L, Ls.getLast? = some L → 1 ≤ L.length ∧ L.length ≤ 2 ^ k) →
    treeHash Ls.flatten = treeHash (Ls.map treeHash) := by
  induction k with
  | zero =>
    intro Ls hne hful hlast
    have hall : ∀ L ∈ Ls, L.length = 1 := by
      intro L hL
      rw [← List.dropLast_concat_getLast hne, List.mem_append, List.mem_singleton] at hL
      rcases hL with hL | rfl
      · simpa using hful L hL
      · have := hlast _ (List.getLast?_eq_getLast Ls hne)
        simp only [pow_zero] at this
        omega
    rw [flatten_of_singletons Ls hall]
  | succ k ih =>
    intro Ls hne hful hlast
    have h2 : 2 ^ (k + 1) = 2 * 2 ^ k := by rw [pow_succ]; ring
    rw [treeHash_levelStep,
      levelStep_flatten Ls (fun L hL => by rw [hful L hL, h2]; omega),
      ih (Ls.map levelStep) (by simpa using hne) ?_ ?_, List.map_map]
    · congr 1
      exact List.map_congr_left (fun L _ => (treeHash_levelStep L).symm)
    · intro L hL
      rw [← List.map_dropLast] at hL
      obtain ⟨L0, hL0, rfl⟩ := List.mem_map.mp hL
      rw [levelStep_length, hful L0 hL0, h2]
      omega
    · intro L hL
      rw [List.getLast?_map] at hL
      obtain ⟨L0, hL0, rfl⟩ := Option.map_eq_some'.mp hL
      obtain ⟨h1, h2'⟩ := hlast L0 hL0
      rw [h2] at h2'
      rw [levelStep_length]
      omega

theorem leavesOf_append_mul (A C : List Nat) (hA : A.length % CHUNK = 0) :
    leavesOf (A ++ C) = leavesOf A ++ leavesOf C := by
  have hdiv : A.length / CHUNK * CHUNK = A.length := by
    simp only [CHUNK] at *
    omega
  have hAC : (A ++ C).length / CHUNK * CHUNK = A.length + C.length / CHUNK * CHUNK := by
    simp only [List.length_append]
    simp only [CHUNK] at *
    omega
  have hremA : A.drop (A.length / CHUNK * CHUNK) = [] := by
    rw [hdiv, List.drop_length]
  have hremAC : (A ++ C).drop ((A ++ C).length / CHUNK * CHUNK) =
      C.drop (C.length / CHUNK * CHUNK) := by
    rw [hAC, List.drop_append]
  rw [leavesOf, leavesOf, leavesOf, chunksFull_append_mul A C hA, hremA, hremAC, if_pos rfl]
  simp [List.append_assoc]

theorem leavesOf_flatten : ∀ parts : List (List Nat),
    (∀ P ∈ parts.dropLast, P.length % CHUNK = 0) →
    leavesOf parts.flatten = (parts.map leavesOf).flatten
  | [], _ => by simp [leavesOf, chunksFull_nil]
  | [P], _ => by simp
  | P :: P2 :: rest, h => by
      rw [List.flatten_cons, leavesOf_append_mul P _ (h P (by simp)),
        leavesOf_flatten (P2 :: rest) (fun Q hQ => h Q (by simp at hQ ⊢; exact Or.inr hQ))]
      simp

theorem leavesOf_length_full (P : List Nat) (e : Nat) (h : P.length = 2 ^ e * CHUNK) :
    (leavesOf P).length = 2 ^ e := by
  have hdivP : P.length / CHUNK = 2 ^ e := by
    rw [h, Nat.mul_div_cancel _ CHUNK_pos]
  have hrem : P.drop (P.length / CHUNK * CHUNK) = [] := by
    apply List.drop_eq_nil_of_le
    rw [hdivP, ← h]
  rw [leavesOf, if_pos hrem, List.append_nil, List.length_map, length_chunksFull, hdivP]

theorem leavesOf_length_last (P : List Nat) (e : Nat) (h1 : 1 ≤ P.length)
    (h2 : P.length ≤ 2 ^ e * CHUNK) :
    1 ≤ (leavesOf P).length ∧ (leavesOf P).length ≤ 2 ^ e := by
  have hrem_len : (P.drop (P.length / CHUNK * CHUNK)).length = P.length % CHUNK := by
    rw [List.length_drop]
    simp only [CHUNK]
    omega
  rw [leavesOf, List.length_append, List.length_map, length_chunksFull]
  by_cases hrem : P.drop (P.length / CHUNK * CHUNK) = []
  · rw [if_pos hrem]
    have h0 : P.length % CHUNK = 0 := by
      rw [← hrem_len, hrem, List.length_nil]
    simp only [List.length_nil]
    generalize 2 ^ e = x at h2 ⊢
    simp only [CHUNK] at *
    omega
  · rw [if_neg hrem]
    have h0 : P.length % CHUNK ≠ 0 := by
      intro h0
      exact hrem (List.length_eq_zero.mp (by rw [hrem_len, h0]))
    simp only [List.length_singleton]
    generalize 2 ^ e = x at h2 ⊢
    simp only [CHUNK] at *
    omega

theorem leavesOf_ne_nil (P : List Nat) (h : P ≠ []) : leavesOf P ≠ [] := by
  rw [leavesOf]
  by_cases hrem : P.drop (P.length / CHUNK * CHUNK) = []
  · rw [if_pos hrem, List.append_nil]
    have hlen : 0 < P.length := List.length_pos.2 h
    have hle := List.drop_eq_nil_iff.mp hrem
    rw [← List.length_pos, List.length_map, length_chunksFull]
    simp only [CHUNK] at *
    omega
  · rw [if_neg hrem]
    simp

/-- C4 amended: when all parts have the same power-of-two number of MiB
and the last part is non-empty and no longer than the others, feeding the
per-part tree-hash roots to `MultiTreeHasher.Add` in part order and
calling `CreateHash` yields exactly the hex root of hashing the full
concatenation with one `TreeHash`. -/
theorem claim_C4_amended (parts : List (List Nat)) (e : Nat)
    (hne : parts ≠ [])
    (hful : ∀ P ∈ parts.dropLast, P.length = 2 ^ e * CHUNK)
    (hlast : ∀ P, parts.getLast? = some P → 1 ≤ P.length ∧ P.length ≤ 2 ^ e * CHUNK) :
    mthFold (parts.map partRootHex) =
        some (parts.map (fun p => THTreeHash (THClose (THWrite initTH p)))) ∧
      MTHCreateHash (parts.map (fun p => THTreeHash (THClose (THWrite initTH p)))) =
        hexBytes (THTreeHash (THClose (THWrite initTH parts.flatten))) := by
  have hCHUNKpow : 0 < 2 ^ e * CHUNK := Nat.mul_pos (Nat.pos_pow_of_pos e (by norm_num)) CHUNK_pos
  have hpne : ∀ P ∈ parts, P ≠ [] := by
    intro P hP
    rw [← List.dropLast_concat_getLast hne, List.mem_append, List.mem_singleton] at hP
    rcases hP with hP | rfl
    · have hl := hful P hP
      intro h0
      rw [h0] at hl
      simp only [List.length_nil] at hl
      omega
    · have hl := hlast _ (List.getLast?_eq_getLast parts hne)
      intro h0
      rw [h0] at hl
      simp at hl
  have hroots : ∀ P ∈ parts,
      THTreeHash (THClose (THWrite initTH P)) = treeHash (leavesOf P) :=
    fun P hP => partRoot_eq P (hpne P hP)
  have hgoodLeaves : ∀ (P : List Nat), ∀ d ∈ leavesOf P, goodDigest d := by
    intro P d hd
    rw [leavesOf, List.mem_append] at hd
    rcases hd with hd | hd
    · obtain ⟨c, _, rfl⟩ := List.mem_map.mp hd
      exact goodDigest_sha256 c
    · split at hd
      · simp at hd
      · rw [List.mem_singleton] at hd
        subst hd
        exact goodDigest_sha256 _
  have hroot_good : ∀ P ∈ parts, goodDigest (THTreeHash (THClose (THWrite initTH P))) := by
    intro P hP
    rw [hroots P hP]
    exact goodDigest_treeHash _ (leavesOf_ne_nil P (hpne P hP)) (hgoodLeaves P)
  have hflat_ne : parts.flatten ≠ [] := by
    match parts, hne with
    | P :: rest, _ =>
      rw [List.flatten_cons]
      intro h0
      rw [List.append_eq_nil] at h0
      exact hpne P (by simp) h0.1
  constructor
  · have hmm : parts.map partRootHex =
        (parts.map (fun p => THTreeHash (THClose (THWrite initTH p)))).map hexBytes := by
      rw [List.map_map]
      rfl
    rw [hmm, mthFold]
    rw [mthFold_go _ []
      (by intro d hd; obtain ⟨P, hP, rfl⟩ := List.mem_map.mp hd; exact hroot_good P hP)]
    simp
  · rw [MTHCreateHash,
      if_neg (by
        intro h0
        rw [List.length_map, List.length_eq_zero] at h0
        exact hne h0)]
    rw [partRoot_eq _ hflat_ne,
      leavesOf_flatten parts (fun P hP => by rw [hful P hP, Nat.mul_mod_left])]
    rw [treeHash_flatten_pow e (parts.map leavesOf) (by simpa using hne) ?_ ?_]
    · rw [List.map_map]
      congr 2
      apply List.map_congr_left
      intro P hP
      exact hroots P hP
    · intro L hL
      rw [← List.map_dropLast] at hL
      obtain ⟨P, hP, rfl⟩ := List.mem_map.mp hL
      exact leavesOf_length_full P e (hful P hP)
    · intro L hL
      rw [List.getLast?_map] at hL
      obtain ⟨P, hP, rfl⟩ := Option.map_eq_some'.mp hL
      obtain ⟨ha, hb⟩ := hlast P hP
      exact leavesOf_length_last P e ha hb

/-- Witness for the amended C4 at a single 1-byte part. -/
theorem claim_C4_witness :
    (([[0]] : List (List Nat)) ≠ []) ∧
      (mthFold (([[0]] : List (List Nat)).map partRootHex) =
          some (([[0]] : List (List Nat)).map
            (fun p => THTreeHash (THClose (THWrite initTH p)))) ∧
        MTHCreateHash (([[0]] : List (List Nat)).map
            (fun p => THTreeHash (THClose (THWrite initTH p)))) =
          hexBytes (THTreeHash (THClose (THWrite initTH ([[0]] : List (List Nat)).flatten)))) :=
  ⟨by decide,
    claim_C4_amended [[0]] 0 (by decide)
      (by intro P hP; simp at hP)
      (by
        intro P hP
        simp only [List.getLast?, Option.some.injEq] at hP
        subst hP
        exact ⟨by norm_num, by norm_num [CHUNK]⟩)⟩

/-- C4 counterexample: the 2-way split of the body `[0x07]` into a 0-byte
part (1 MiB-aligned: its length is `0 * CHUNK`) and the 1-byte rest.
Closing a `TreeHash` that was fed the empty part leaves its zero-valued
`treeHash` field, so that part's individually computed root is the all-zero
digest; `MultiTreeHasher` therefore combines an all-zero leaf with
`SHA256(07)` and `CreateHash` returns `hex(SHA256(0^32 ++ SHA256(07)))`,
while one `TreeHash` over the full body returns `hex(SHA256(07))`. -/
theorem claim_C4_counterexample :
    (∀ P ∈ ([[], [7]] : List (List Nat)).dropLast, P.length % CHUNK = 0) ∧
    mthFold (([[], [7]] : List (List Nat)).map partRootHex) =
      some (([[], [7]] : List (List Nat)).map
        (fun p => THTreeHash (THClose (THWrite initTH p)))) ∧
    MTHCreateHash (([[], [7]] : List (List Nat)).map
        (fun p => THTreeHash (THClose (THWrite initTH p)))) ≠
      hexBytes (THTreeHash (THClose (THWrite initTH
        ([[], [7]] : List (List Nat)).flatten))) := by
  decide

/-- Witness for C1 at concrete inputs. -/
theorem claim_C1_witness :
    treeHash [[2]] = [2] ∧
    treeHash [[2], [3]] = sha256 ([2] ++ [3]) ∧
    treeHash [[2], [3], [4]] = sha256 (sha256 ([2] ++ [3]) ++ [4]) ∧
    levelStep [[5], [6], [7]] =
      levelStep ([[5], [6], [7]] : List (List Nat)).dropLast ++
        [([[5], [6], [7]] : List (List Nat)).getLast (by decide)] :=
  claim_C1 [2] [2] [3] [4] [[5], [6], [7]] (by decide) (by decide)

end Aws
